import Mathlib

/-!
Shallow embedding of `CDynamicBitSet<BlockType>` from `src/C++/BitSet.hpp`.

Machine words (`BlockType`, an unsigned integer of bit width `W`) are modelled
as natural numbers kept below `2 ^ W`; every C++ expression that can exceed the
word width is reduced with an explicit `% 2 ^ W`.  The member fields `m_data`
(the heap buffer), `m_size` (bit count) and `m_storage_size` (block count) are
carried in a structure.  The null pointer state of `m_data` is modelled by the
empty list (states used in the theorems below never hold a non-null empty
buffer, so the identification is faithful there).

Where the C++ instantiates `sizeof(BlockType)`, the definitions below follow
the `uint8_t` instantiation (`sizeof(BlockType) = 1`, so the byte counts passed
to `memset` coincide with block counts); theorems that depend on those byte
counts are stated at `W = 8`, where this is the exact C++ semantics (for
`uint8_t` the shift operand is promoted to `int`, so even the width-sized
shifts in `set`/`test` are well defined and equal the `% 2 ^ W` reduction).
-/

namespace CDynamicBitSet

/-- State of a `CDynamicBitSet`: buffer, bit count, block count
(fields `m_data`, `m_size`, `m_storage_size` of the C++ class). -/
structure DynBitSet where
  m_data : List Nat
  m_size : Nat
  m_storage_size : Nat
deriving DecidableEq, Repr

/-- `*(m_data + n)`: read block `n` of a buffer (0 for an out-of-bounds read,
which the theorems below never rely on). -/
def word : List Nat → Nat → Nat
  | [], _ => 0
  | w :: _, 0 => w
  | _ :: t, n + 1 => word t n

/-- `calculate_storage_size`: `size / m_block_size + (size % m_block_size ? 1 : 0)`. -/
def calculate_storage_size (W size : Nat) : Nat :=
  size / W + (if size % W ≠ 0 then 1 else 0)

/-- The size constructor `CDynamicBitSet(size)`: allocates
`calculate_storage_size size` blocks and calls `reset()`, zeroing them. -/
def ofSize (W size : Nat) : DynBitSet :=
  ⟨List.replicate (calculate_storage_size W size) 0, size, calculate_storage_size W size⟩

/-- `set(index, value)`: `m_data[index / W] |= 1 << (W - index % W)` for `true`,
`&= ~(1 << (W - index % W))` for `false` (the source shifts by
`m_block_size - index % m_block_size`, not by `index % m_block_size`). -/
def set (W : Nat) (b : DynBitSet) (index : Nat) (value : Bool) : DynBitSet :=
  let w := word b.m_data (index / W)
  let mask := (1 <<< (W - index % W)) % 2 ^ W
  let nw := if value then w ||| mask else w &&& ((2 ^ W - 1) ^^^ mask)
  { b with m_data := b.m_data.set (index / W) nw }

/-- `reset(index)`: `m_data[index / W] &= ~(1 << (W - index % W))`. -/
def reset (W : Nat) (b : DynBitSet) (index : Nat) : DynBitSet :=
  let w := word b.m_data (index / W)
  let mask := (1 <<< (W - index % W)) % 2 ^ W
  { b with m_data := b.m_data.set (index / W) (w &&& ((2 ^ W - 1) ^^^ mask)) }

/-- `test(index)` (and `operator[]`): `m_data[index / W] & (1 << (W - index % W))`
converted to `bool`. -/
def test (W : Nat) (b : DynBitSet) (index : Nat) : Bool :=
  decide (word b.m_data (index / W) &&& ((1 <<< (W - index % W)) % 2 ^ W) ≠ 0)

/-- The bit the rest of the code base stores at index `p`: bit offset `p % W`
of block `p / W` (the addressing used by `fill_in_range`, `push_back`, `all`,
`any` and `count`). -/
def rawBit (W : Nat) (data : List Nat) (p : Nat) : Bool :=
  Nat.testBit (word data (p / W)) (p % W)

/-- `set_block(index, block)`: `m_data[index] = block`
(default argument for `block` is the all-ones word). -/
def set_block (b : DynBitSet) (index block : Nat) : DynBitSet :=
  { b with m_data := b.m_data.set index block }

/-- One iteration group of the per-bit loops of `fill_in_range`/`reset_in_range`:
set (`value = true`, `|= 1 << i`) or clear (`value = false`, `&= ~(1 << i)`)
bit offsets `lo, lo+1, …, hi-1` of the block `w`. -/
def setBitsInWord (W w lo hi : Nat) (value : Bool) : Nat :=
  (List.range' lo (hi - lo)).foldl
    (fun acc i => if value then acc ||| (1 <<< i) else acc &&& ((2 ^ W - 1) ^^^ (1 <<< i))) w

/-- Write block value `v` to block indices `[start, start + len)` of the buffer:
the effect of `memset(m_data + start, v ? max : 0, len)` on the buffer
(`uint8_t` instantiation: 1 byte = 1 block).  Indices beyond the buffer are
dropped; in C++ such a write is out of bounds. -/
def memsetWords (data : List Nat) (start len v : Nat) : List Nat :=
  (List.range data.length).map (fun i => if start ≤ i ∧ i < start + len then v else word data i)

/-- `fill_in_range(begin, end, value)` (the contiguous two-index overload),
`uint8_t` instantiation.  Head block: bit loop over
`[begin % W, (begin/W == end/W ? end % W : W))` when `begin % W != 0`
(else `to_add = 0`); tail block: bit loop over `[0, end % W)` when
`end % W != 0 && begin/W != end/W` (else `to_sub = 0`); then
`memset(m_data + begin/W + to_add, value ? max : 0, (end - begin)/W * 1 - to_sub)`.
The subtraction in the `memset` byte count is the source's `uint64_t`
subtraction; it is written with truncated `Nat` subtraction, which agrees with
the source whenever the count does not underflow (it underflows only in cases
that make the C++ `memset` run out of bounds). -/
def fill_in_range (W : Nat) (b : DynBitSet) (begin_ end_ : Nat) (value : Bool) : DynBitSet :=
  let wB := begin_ / W
  let wE := end_ / W
  let d1 := if begin_ % W ≠ 0 then
      b.m_data.set wB (setBitsInWord W (word b.m_data wB) (begin_ % W)
        (if wB = wE then end_ % W else W) value)
    else b.m_data
  let to_add := if begin_ % W ≠ 0 then 1 else 0
  let d2 := if end_ % W ≠ 0 ∧ wB ≠ wE then
      d1.set wE (setBitsInWord W (word d1 wE) 0 (end_ % W) value)
    else d1
  let to_sub := if end_ % W ≠ 0 ∧ wB ≠ wE then 1 else 0
  let filler := if value then 2 ^ W - 1 else 0
  { b with m_data := memsetWords d2 (wB + to_add) ((end_ - begin_) / W - to_sub) filler }

/-- Flip bit offsets `lo, …, hi-1` of block `w` (`^= 1 << i` loop). -/
def flipBitsInWord (w lo hi : Nat) : Nat :=
  (List.range' lo (hi - lo)).foldl (fun acc i => acc ^^^ (1 <<< i)) w

/-- `flip_in_range(begin, end)`: head block flips offsets `[begin % W, W)` when
`begin % W != 0` (the source never tightens the bound to `end % W`); middle
blocks `[begin/W + to_add, end/W)` are complemented (`~`, i.e. `^^^ (2^W - 1)`
on a word below `2^W`); tail block flips offsets `[0, end % W)` when
`end % W != 0` — with no check that the tail block differs from the head. -/
def flip_in_range (W : Nat) (b : DynBitSet) (begin_ end_ : Nat) : DynBitSet :=
  let wB := begin_ / W
  let d1 := if begin_ % W ≠ 0 then
      b.m_data.set wB (flipBitsInWord (word b.m_data wB) (begin_ % W) W)
    else b.m_data
  let to_add := if begin_ % W ≠ 0 then 1 else 0
  let d2 := (List.range' (wB + to_add) (end_ / W - (wB + to_add))).foldl
      (fun d i => d.set i ((2 ^ W - 1) ^^^ word d i)) d1
  let d3 := if end_ % W ≠ 0 then
      d2.set (end_ / W) (flipBitsInWord (word d2 (end_ / W)) 0 (end_ % W))
    else d2
  { b with m_data := d3 }

/-- Loop body of the stepped overloads
`fill_in_range(begin, end, step, value)` / `reset_in_range(begin, end, step)`:
`m_data[i / W] |= 1 << i % W` (value `true`) or `&= ~(1 << i % W)` (`false`). -/
def writeBit (W : Nat) (data : List Nat) (i : Nat) (value : Bool) : List Nat :=
  let w := word data (i / W)
  data.set (i / W) (if value then w ||| (1 <<< (i % W)) else w &&& ((2 ^ W - 1) ^^^ (1 <<< (i % W))))

/-- The loop `for (i = begin; i < end; i += step) writeBit i` with explicit
fuel: `none` means the fuel ran out before the loop condition `i < end`
became false (for `step = 0` and `begin < end` no fuel suffices — the C++
loop never terminates). -/
def fillStepGo (W end_ step : Nat) (value : Bool) : Nat → Nat → List Nat → Option (List Nat)
  | 0, i, data => if i < end_ then none else some data
  | fuel + 1, i, data =>
    if i < end_ then fillStepGo W end_ step value fuel (i + step) (writeBit W data i value)
    else some data

/-- `fill_in_range(begin, end, step, value)` (the stepped overload).  Fuel
`end - begin` is enough for every terminating run (the index grows by
`step ≥ 1` each iteration). -/
def fill_in_range_step (W : Nat) (b : DynBitSet) (begin_ end_ step : Nat) (value : Bool) :
    Option DynBitSet :=
  (fillStepGo W end_ step value (end_ - begin_) begin_ b.m_data).map
    (fun d => { b with m_data := d })

/-- `reset_in_range(begin, end, step)`: the same loop with the `&= ~(1 << i % W)`
body, i.e. the stepped fill with value `false`. -/
def reset_in_range_step (W : Nat) (b : DynBitSet) (begin_ end_ step : Nat) : Option DynBitSet :=
  fill_in_range_step W b begin_ end_ step false

/-- `all()`: every block before the final partial one equals the all-ones
word, and, when `m_size % W != 0`, bit offsets `[0, m_size % W)` of block
`m_size / W` are all set (padding offsets are not inspected). -/
def all (W : Nat) (b : DynBitSet) : Bool :=
  ((List.range (b.m_storage_size - (if b.m_size % W ≠ 0 then 1 else 0))).all
    fun i => word b.m_data i == 2 ^ W - 1) &&
  (if b.m_size % W ≠ 0 then
      (List.range (b.m_size % W)).all fun j => Nat.testBit (word b.m_data (b.m_size / W)) j
    else true)

/-- `any()`: some block before the final partial one is nonzero, or, when
`m_size % W != 0`, some bit offset in `[0, m_size % W)` of block `m_size / W`
is set (padding offsets are not inspected). -/
def any (W : Nat) (b : DynBitSet) : Bool :=
  ((List.range (b.m_storage_size - (if b.m_size % W ≠ 0 then 1 else 0))).any
    fun i => word b.m_data i != 0) ||
  (if b.m_size % W ≠ 0 then
      (List.range (b.m_size % W)).any fun j => Nat.testBit (word b.m_data (b.m_size / W)) j
    else false)

/-- `none()`: every one of the `m_storage_size` raw blocks is zero — the
source masks nothing here, padding bits included. -/
def none (W : Nat) (b : DynBitSet) : Bool :=
  (List.range b.m_storage_size).all fun i => word b.m_data i == 0

/-- The Kernighan loop `while (j) { j &= j - 1; ++count; }` with fuel `j`
(the value strictly decreases each iteration, so fuel `j` always suffices). -/
def kernighanGo : Nat → Nat → Nat
  | 0, _ => 0
  | fuel + 1, j => if j = 0 then 0 else 1 + kernighanGo fuel (j &&& (j - 1))

/-- Population count of one block via the Kernighan loop. -/
def popcountK (j : Nat) : Nat := kernighanGo j j

/-- `count()`: sum of the Kernighan population counts of all
`m_storage_size` raw blocks — no masking of the final partial block. -/
def count (W : Nat) (b : DynBitSet) : Nat :=
  (List.range b.m_storage_size).foldl (fun acc i => acc + popcountK (word b.m_data i)) 0

/-- `push_back(value)`: if `m_size % W != 0` the bit lands at offset
`m_size % W` of block `m_size / W`; otherwise a buffer one block larger is
allocated, the old blocks are copied, the new block is set to the bit value
and `m_storage_size` grows; `m_size` grows either way. -/
def push_back (W : Nat) (b : DynBitSet) (value : Bool) : DynBitSet :=
  if b.m_size % W ≠ 0 then
    { b with m_data := writeBit W b.m_data b.m_size value, m_size := b.m_size + 1 }
  else
    { m_data := b.m_data ++ [if value then 1 else 0],
      m_size := b.m_size + 1, m_storage_size := b.m_storage_size + 1 }

/-- `pop_back()`: guarded by the `m_data` null check; when `m_size % W == 0`
the source allocates a buffer of `m_storage_size - 1` blocks (and copies
`m_storage_size` blocks into it — the out-of-bounds word is dropped here);
`m_storage_size` is never updated; `m_size` is decremented. -/
def pop_back (W : Nat) (b : DynBitSet) : DynBitSet :=
  if b.m_data ≠ [] then
    { b with
      m_data := if b.m_size % W = 0 then b.m_data.take (b.m_storage_size - 1) else b.m_data,
      m_size := b.m_size - 1 }
  else b

/-- `push_back_block(block)`: allocates `m_storage_size + (m_size % W ? 2 : 1)`
blocks (the possible extra block stays uninitialized and outside
`m_storage_size`, so it is not represented), copies the old blocks, writes
`block` at index `m_storage_size`, increments `m_storage_size`, and rounds
`m_size` up to a multiple of `W` before adding `W`. -/
def push_back_block (W : Nat) (b : DynBitSet) (block : Nat) : DynBitSet :=
  { m_data := b.m_data.take b.m_storage_size ++ [block],
    m_size := b.m_size + W + (if b.m_size % W ≠ 0 then W - b.m_size % W else 0),
    m_storage_size := b.m_storage_size + 1 }

/-- `pop_back_block()`: guarded by the null check; when `m_size % W != 0`,
`m_size` is first set to `(m_storage_size - 1) * W`; the buffer shrinks to
`m_storage_size - 1` blocks, `m_storage_size` is decremented and `m_size`
drops by `W`. -/
def pop_back_block (W : Nat) (b : DynBitSet) : DynBitSet :=
  if b.m_data ≠ [] then
    let s1 := if b.m_size % W ≠ 0 then (b.m_storage_size - 1) * W else b.m_size
    { m_data := b.m_data.take (b.m_storage_size - 1),
      m_size := s1 - W,
      m_storage_size := b.m_storage_size - 1 }
  else b

/-- `resize(new_size)`: equal size is a no-op; shrinking only rewrites
`m_size` and `m_storage_size`, keeping the buffer; growing allocates
`calculate_storage_size new_size` blocks, copies the first `m_storage_size`
old blocks and leaves the rest uninitialized — the fresh memory contents are
taken from the arbitrary function `junk`. -/
def resize (W : Nat) (b : DynBitSet) (new_size : Nat) (junk : Nat → Nat) : DynBitSet :=
  if new_size = b.m_size then b
  else if new_size < b.m_size then
    { b with m_size := new_size, m_storage_size := calculate_storage_size W new_size }
  else
    let new_storage := calculate_storage_size W new_size
    { m_data := b.m_data.take b.m_storage_size ++
        (List.range (new_storage - b.m_storage_size)).map junk,
      m_size := new_size, m_storage_size := new_storage }

/-- `operator==`: `false` on a size mismatch, otherwise compare all
`m_storage_size` raw blocks (padding bits included). -/
def beq (a b : DynBitSet) : Bool :=
  if a.m_size ≠ b.m_size then false
  else (List.range a.m_storage_size).all fun i => word a.m_data i == word b.m_data i

/-- `operator!=`: `true` on a size mismatch, otherwise `true` iff some of the
`m_storage_size` raw blocks differ. -/
def bne (a b : DynBitSet) : Bool :=
  if a.m_size ≠ b.m_size then true
  else (List.range a.m_storage_size).any fun i => word a.m_data i != word b.m_data i

end CDynamicBitSet

namespace CDynamicBitSet

/-- C1: the set/get round trip fails.  On the 8-bit instantiation, starting
from the all-clear bitset of size 8, `set(0, true)` shifts the mask by the
full word width (`W - 0 % W = 8`), so the stored block is unchanged and the
subsequent `test(0)` returns `false`; moreover `set(3, true)` stores
`2 ^ (8 - 3) = 32`, i.e. it writes bit offset 5, not offset `3 % 8 = 3` as the
addressing contract states. -/
theorem set_test_round_trip_fails :
    test 8 (set 8 (ofSize 8 8) 0 true) 0 = false ∧
    (set 8 (ofSize 8 8) 0 true).m_data = [0] ∧
    (set 8 (ofSize 8 8) 3 true).m_data = [32] ∧
    rawBit 8 (set 8 (ofSize 8 8) 3 true).m_data 3 = false := by
  decide

/-- C2: whole-range fill does not reach `all()` / `none()`.  On the 8-bit
instantiation with size 10, `fill_in_range(0, 10, true)` sets only bits 8 and 9
(the `memset` block count `(10 - 0) / 8 - to_sub` is `0`, so block 0 is never
written), leaving `all() = false` on an initially clear bitset; dually,
`fill_in_range(0, 10, false)` on the all-ones buffer leaves block 0 at 255, so
`none() = false`. -/
theorem fill_whole_range_fails :
    all 8 (fill_in_range 8 (ofSize 8 10) 0 10 true) = false ∧
    (fill_in_range 8 (ofSize 8 10) 0 10 true).m_data = [0, 3] ∧
    none 8 (fill_in_range 8 (set_block (set_block (ofSize 8 10) 0 255) 1 255) 0 10 false)
      = false := by
  decide

/-- C3: `none()` is not the negation of `any()` because `none()` reads the raw
blocks without masking padding bits.  The reachable state obtained from the
size-5 constructor followed by `set_block(0, 128)` has only padding bit 7 set:
`any()` masks it out and returns `false`, yet `none()` also returns `false`. -/
theorem none_not_negation_of_any :
    none 8 (set_block (ofSize 8 5) 0 128) = false ∧
    any 8 (set_block (ofSize 8 5) 0 128) = false := by
  decide

/-- C4: `count()` does not exclude padding bits.  For the size-5 bitset over
8-bit blocks whose single block is set to 255 via `set_block`, `all()` is
`true` (it masks the partial block) but `count()` returns all 8 raw set bits,
not 5 as the claim states. -/
theorem count_includes_padding :
    count 8 (set_block (ofSize 8 5) 0 255) = 8 ∧
    all 8 (set_block (ofSize 8 5) 0 255) = true := by
  decide

/-- C5: invariant I2 breaks after `pop_back`.  The size-1 bitset over 8-bit
blocks satisfies `m_storage_size = calculate_storage_size m_size`, but after
`pop_back()` (which decrements `m_size` to 0 and never updates
`m_storage_size`) the storage size is still 1 while `ceil(0 / 8) = 0`. -/
theorem pop_back_breaks_storage_invariant :
    (⟨[1], 1, 1⟩ : DynBitSet).m_storage_size
        = calculate_storage_size 8 (⟨[1], 1, 1⟩ : DynBitSet).m_size ∧
    (pop_back 8 ⟨[1], 1, 1⟩).m_size = 0 ∧
    (pop_back 8 ⟨[1], 1, 1⟩).m_storage_size = 1 ∧
    calculate_storage_size 8 (pop_back 8 ⟨[1], 1, 1⟩).m_size = 0 := by
  decide

/-- C6: the single-word frame property fails for `flip_in_range`.  On the
all-clear size-8 bitset, `flip_in_range(2, 5)` — whose head and tail block
coincide — flips offsets `[2, 8)` in the head pass and `[0, 5)` in the tail
pass, producing block `227 = 0b11100011`: the out-of-range offsets
`0, 1, 5, 6, 7` are modified while the in-range offsets `2, 3, 4` are left
unchanged (flipped twice). -/
theorem flip_single_word_frame_fails :
    (flip_in_range 8 (ofSize 8 8) 2 5).m_data = [227] ∧
    rawBit 8 (flip_in_range 8 (ofSize 8 8) 2 5).m_data 0 = true ∧
    rawBit 8 (flip_in_range 8 (ofSize 8 8) 2 5).m_data 2 = false := by
  decide

theorem word_set_self (l : List Nat) (n a : Nat) (h : n < l.length) :
    word (l.set n a) n = a := by
  induction l generalizing n with
  | nil => simp at h
  | cons x t ih =>
    cases n with
    | zero => rfl
    | succ m => exact ih m (Nat.lt_of_succ_lt_succ (by simpa using h))

theorem word_set_ne (l : List Nat) (n m a : Nat) (h : m ≠ n) :
    word (l.set n a) m = word l m := by
  induction l generalizing n m with
  | nil => rfl
  | cons x t ih =>
    cases n with
    | zero =>
      cases m with
      | zero => exact absurd rfl h
      | succ k => rfl
    | succ n2 =>
      cases m with
      | zero => rfl
      | succ k => exact ih n2 k (fun e => h (by rw [e]))

theorem length_writeBit (W : Nat) (data : List Nat) (i : Nat) (v : Bool) :
    (writeBit W data i v).length = data.length := by
  simp [writeBit]

theorem rawBit_writeBit (W : Nat) (data : List Nat) (i : Nat) (v : Bool) (hW : 0 < W)
    (hi : i / W < data.length) (p : Nat) :
    rawBit W (writeBit W data i v) p = if p = i then v else rawBit W data p := by
  have hsh : (1 <<< (i % W)) = 2 ^ (i % W) := by simp [Nat.shiftLeft_eq]
  have hiW : i % W < W := Nat.mod_lt _ hW
  unfold rawBit writeBit
  by_cases hpw : p / W = i / W
  · rw [hpw, word_set_self _ _ _ hi]
    by_cases hp : p = i
    · subst hp
      rw [if_pos rfl]
      cases v with
      | true => simp [hsh, Nat.testBit_lor, Nat.testBit_two_pow_self]
      | false =>
        simp [hsh, Nat.testBit_land, Nat.testBit_xor, Nat.testBit_two_pow_sub_one,
          Nat.testBit_two_pow_self, hiW]
    · have hne : p % W ≠ i % W := by
        intro he
        exact hp (by rw [← Nat.div_add_mod p W, ← Nat.div_add_mod i W, hpw, he])
      have hpW : p % W < W := Nat.mod_lt _ hW
      rw [if_neg hp]
      cases v with
      | true => simp [hsh, Nat.testBit_lor, Nat.testBit_two_pow_of_ne (fun h => hne h.symm)]
      | false =>
        simp [hsh, Nat.testBit_land, Nat.testBit_xor, Nat.testBit_two_pow_sub_one,
          Nat.testBit_two_pow_of_ne (fun h => hne h.symm), hpW]
  · have hne : p ≠ i := fun he => hpw (by rw [he])
    rw [if_neg hne, word_set_ne _ _ _ _ hpw]

theorem fillStepGo_some_char (W e step : Nat) (v : Bool) (hW : 0 < W) (hs : 0 < step) :
    ∀ (fuel i : Nat) (data : List Nat), e ≤ i + fuel → e ≤ W * data.length →
      ∃ r, fillStepGo W e step v fuel i data = some r ∧ r.length = data.length ∧
        ∀ p, rawBit W r p =
          if i ≤ p ∧ p < e ∧ (p - i) % step = 0 then v else rawBit W data p := by
  intro fuel
  induction fuel with
  | zero =>
    intro i data hfe _
    have hni : ¬ i < e := by omega
    refine ⟨data, by simp [fillStepGo, hni], rfl, fun p => ?_⟩
    rw [if_neg]
    rintro ⟨h1, h2, _⟩
    omega
  | succ fuel ih =>
    intro i data hfe hlen
    by_cases hie : i < e
    · have hlen2 : (writeBit W data i v).length = data.length := length_writeBit W data i v
      have hiw : i / W < data.length := by
        rw [Nat.div_lt_iff_lt_mul hW]
        calc i < e := hie
        _ ≤ W * data.length := hlen
        _ = data.length * W := Nat.mul_comm _ _
      obtain ⟨r, hr, hrl, hc⟩ :=
        ih (i + step) (writeBit W data i v) (by omega) (by rw [hlen2]; exact hlen)
      refine ⟨r, ?_, by rw [hrl, hlen2], fun p => ?_⟩
      · simp only [fillStepGo, if_pos hie]
        exact hr
      · rw [hc p]
        by_cases hpi : p = i
        · subst hpi
          rw [if_neg (by omega), rawBit_writeBit W data p v hW hiw p, if_pos rfl,
            if_pos ⟨Nat.le_refl p, hie, by simp⟩]
        · have hequiv : (i + step ≤ p ∧ p < e ∧ (p - (i + step)) % step = 0) ↔
              (i ≤ p ∧ p < e ∧ (p - i) % step = 0) := by
            constructor
            · rintro ⟨h1, h2, h3⟩
              refine ⟨by omega, h2, ?_⟩
              have hd : step ∣ (p - (i + step)) := Nat.dvd_iff_mod_eq_zero.mpr h3
              have hd2 : step ∣ (p - (i + step)) + step := Nat.dvd_add hd (Nat.dvd_refl step)
              have he2 : p - (i + step) + step = p - i := by omega
              exact Nat.dvd_iff_mod_eq_zero.mp (he2 ▸ hd2)
            · rintro ⟨h1, h2, h3⟩
              have hd : step ∣ (p - i) := Nat.dvd_iff_mod_eq_zero.mpr h3
              have hpos : 0 < p - i := by omega
              have hge : step ≤ p - i := Nat.le_of_dvd hpos hd
              refine ⟨by omega, h2, ?_⟩
              have hd2 : step ∣ (p - i) - step := Nat.dvd_sub' hd (Nat.dvd_refl step)
              have he2 : p - i - step = p - (i + step) := by omega
              exact Nat.dvd_iff_mod_eq_zero.mp (he2 ▸ hd2)
          rw [rawBit_writeBit W data i v hW hiw p, if_neg hpi, if_congr hequiv rfl rfl]
    · have hge : e ≤ i := by omega
      refine ⟨data, by simp [fillStepGo, hie], rfl, fun p => ?_⟩
      rw [if_neg]
      rintro ⟨h1, h2, _⟩
      omega

/-- C7: the strided range contract holds.  For every word width `W ≥ 1`, every
`step ≥ 1` and every range whose end fits the buffer, the stepped
`fill_in_range(begin, end, step, value)` terminates and afterwards bit `p`
(offset `p % W` of block `p / W`) equals `value` exactly when
`p ∈ {begin, begin + step, …} ∩ [begin, end)`, and every other bit — padding
bits included — is unchanged; size and storage are untouched.  The witness
instantiates concrete scenario B: size 30, blocks all-ones on the 30 logical
bits, `reset_in_range(25, 30, 5)` clears exactly bit 25 and `count()` drops
to 29. -/
theorem fill_in_range_step_exact (W : Nat) (b : DynBitSet) (begin_ e step : Nat) (v : Bool)
    (hW : 0 < W) (hs : 0 < step) (hlen : e ≤ W * b.m_data.length) :
    ∃ r, fill_in_range_step W b begin_ e step v = some r ∧
      r.m_size = b.m_size ∧ r.m_storage_size = b.m_storage_size ∧
      r.m_data.length = b.m_data.length ∧
      ∀ p, rawBit W r.m_data p =
        if begin_ ≤ p ∧ p < e ∧ (p - begin_) % step = 0 then v
        else rawBit W b.m_data p := by
  obtain ⟨d, hd, hdl, hdc⟩ :=
    fillStepGo_some_char W e step v hW hs (e - begin_) begin_ b.m_data (by omega) hlen
  refine ⟨{ b with m_data := d }, ?_, rfl, rfl, hdl, hdc⟩
  unfold fill_in_range_step
  rw [hd]
  rfl

/-- Witness for C7 (concrete scenario B): on the size-30 bitset whose 30
logical bits are all set (blocks `[255, 255, 255, 63]`),
`reset_in_range(25, 30, 5)` succeeds, clears bit 25, keeps bit 26 and leaves
`count() = 29`. -/
theorem fill_in_range_step_exact_witness :
    0 < 8 ∧ 0 < 5 ∧ 30 ≤ 8 * (⟨[255, 255, 255, 63], 30, 4⟩ : DynBitSet).m_data.length ∧
    ∃ r, reset_in_range_step 8 ⟨[255, 255, 255, 63], 30, 4⟩ 25 30 5 = some r ∧
      rawBit 8 r.m_data 25 = false ∧ rawBit 8 r.m_data 26 = true ∧ count 8 r = 29 := by
  refine ⟨by decide, by decide, by decide, ?_⟩
  obtain ⟨r, hr, _, _, _, hc⟩ :=
    fill_in_range_step_exact 8 ⟨[255, 255, 255, 63], 30, 4⟩ 25 30 5 false
      (by decide) (by decide) (by decide)
  have hconc : reset_in_range_step 8 ⟨[255, 255, 255, 63], 30, 4⟩ 25 30 5
      = some (⟨[255, 255, 255, 61], 30, 4⟩ : DynBitSet) := by decide
  have hrc : r = (⟨[255, 255, 255, 61], 30, 4⟩ : DynBitSet) := by
    have h2 := hconc
    rw [show reset_in_range_step 8 ⟨[255, 255, 255, 63], 30, 4⟩ 25 30 5
        = fill_in_range_step 8 ⟨[255, 255, 255, 63], 30, 4⟩ 25 30 5 false from rfl, hr] at h2
    exact (Option.some.injEq _ _ ▸ h2 : r = _)
  refine ⟨r, hr, ?_, ?_, ?_⟩
  · rw [hc 25]; decide
  · rw [hc 26]; decide
  · rw [hrc]; decide

/-- C8: no range validation exists — with `step = 0` and `begin < end` the
stepped fill loop never terminates instead of failing with `InvalidRange`:
no amount of fuel makes the loop `for (i = 0; i < 8; i += 0)` reach its exit
condition, whatever the buffer contents. -/
theorem step_zero_loop_never_terminates :
    ∀ (fuel : Nat) (data : List Nat), fillStepGo 8 8 0 true fuel 0 data = Option.none := by
  intro fuel
  induction fuel with
  | zero => intro data; simp [fillStepGo]
  | succ n ih => intro data; simp only [fillStepGo, if_pos (by omega : (0:Nat) < 8)]; exact ih _

theorem div_lt_storage (W s i : Nat) (hW : 0 < W) (hi : i < s) :
    i / W < calculate_storage_size W s := by
  unfold calculate_storage_size
  by_cases h : s % W = 0
  · rw [if_neg (by simpa using h), Nat.add_zero, Nat.div_lt_iff_lt_mul hW,
      Nat.div_mul_cancel (Nat.dvd_of_mod_eq_zero h)]
    exact hi
  · have h1 : i / W ≤ s / W := Nat.div_le_div_right (Nat.le_of_lt hi)
    rw [if_pos (by simpa using h)]
    omega

theorem storage_mono (W m n : Nat) (hW : 0 < W) (h : m ≤ n) :
    calculate_storage_size W m ≤ calculate_storage_size W n := by
  unfold calculate_storage_size
  have hq : m / W ≤ n / W := Nat.div_le_div_right h
  rcases Nat.lt_or_ge (m / W) (n / W) with hlt | hge
  · have h1 : (if m % W ≠ 0 then 1 else 0) ≤ 1 := by split <;> omega
    have h2 : (0:Nat) ≤ (if n % W ≠ 0 then 1 else 0) := by split <;> omega
    omega
  · have heq : m / W = n / W := by omega
    have hm := Nat.div_add_mod m W
    have hn := Nat.div_add_mod n W
    rw [heq] at hm
    have hmod : m % W ≤ n % W := by omega
    by_cases hm0 : m % W = 0
    · have h1 : (if m % W ≠ 0 then 1 else 0) = 0 := by simp [hm0]
      have h2 : (0:Nat) ≤ (if n % W ≠ 0 then 1 else 0) := by split <;> omega
      omega
    · have hn0 : n % W ≠ 0 := by omega
      have h1 : (if m % W ≠ 0 then 1 else 0) = 1 := by simp [hm0]
      have h2 : (if n % W ≠ 0 then 1 else 0) = 1 := by simp [hn0]
      omega

theorem word_take_append (l rest : List Nat) (n j : Nat) (hn : n ≤ l.length) (hj : j < n) :
    word (l.take n ++ rest) j = word l j := by
  induction l generalizing n j rest with
  | nil => simp at hn; omega
  | cons x t ih =>
    cases n with
    | zero => omega
    | succ n2 =>
      cases j with
      | zero => rfl
      | succ k =>
        exact ih rest n2 k (Nat.le_of_succ_le_succ (by simpa using hn))
          (Nat.lt_of_succ_lt_succ hj)

/-- C9: `resize` preserves the prefix.  For every wellformed bitset (storage
size matching `calculate_storage_size`, buffer at least that long), every
growth amount `k` and arbitrary contents `f`, `g` of freshly allocated memory:
after `resize(size + k)` every index below the old size reads (via the
single-bit reader `test`/`operator[]`) its old value, and after
`resize(size - k)` followed by `resize(size)` every index below `size - k`
reads its old value. -/
theorem resize_preserves_old_reads (W : Nat) (b : DynBitSet) (k : Nat) (f g : Nat → Nat)
    (hW : 0 < W) (hwf : b.m_storage_size = calculate_storage_size W b.m_size)
    (hlen : b.m_storage_size ≤ b.m_data.length) :
    (∀ i, i < b.m_size → test W (resize W b (b.m_size + k) f) i = test W b i) ∧
    (∀ i, i < b.m_size - k →
      test W (resize W (resize W b (b.m_size - k) f) b.m_size g) i = test W b i) := by
  constructor
  · intro i hi
    rcases Nat.eq_zero_or_pos k with hk | hk
    · subst hk
      rw [show b.m_size + 0 = b.m_size from rfl]
      rw [resize, if_pos rfl]
    · have hdiv : i / W < b.m_storage_size := by
        rw [hwf]; exact div_lt_storage W b.m_size i hW hi
      rw [resize, if_neg (by omega), if_neg (by omega)]
      unfold test
      rw [word_take_append _ _ _ _ hlen hdiv]
  · intro i hi
    by_cases hk0 : k = 0
    · subst hk0
      rw [show b.m_size - 0 = b.m_size from rfl]
      have h0 : resize W b b.m_size f = b := by rw [resize, if_pos rfl]
      have h0g : resize W b b.m_size g = b := by rw [resize, if_pos rfl]
      rw [h0, h0g]
    · have hlt : b.m_size - k < b.m_size := by omega
      have h1 : resize W b (b.m_size - k) f =
          { b with m_size := b.m_size - k,
                   m_storage_size := calculate_storage_size W (b.m_size - k) } := by
        rw [resize, if_neg (by omega), if_pos hlt]
      rw [h1]
      have hsm : calculate_storage_size W (b.m_size - k) ≤ b.m_storage_size := by
        rw [hwf]; exact storage_mono W _ _ hW (by omega)
      have hdiv : i / W < calculate_storage_size W (b.m_size - k) :=
        div_lt_storage W _ i hW hi
      rw [resize, if_neg (by show b.m_size ≠ b.m_size - k; omega),
        if_neg (by show ¬ b.m_size < b.m_size - k; omega)]
      unfold test
      rw [word_take_append _ _ _ _ (Nat.le_trans hsm hlen) hdiv]

/-- Witness for C9: the wellformed two-block bitset `⟨[5, 2], 10, 2⟩` keeps the
values of indices 9 and 1 across `resize(18)` and across
`resize(2); resize(10)` respectively, whatever the fresh memory holds. -/
theorem resize_preserves_old_reads_witness :
    0 < 8 ∧
    (⟨[5, 2], 10, 2⟩ : DynBitSet).m_storage_size
      = calculate_storage_size 8 (⟨[5, 2], 10, 2⟩ : DynBitSet).m_size ∧
    (⟨[5, 2], 10, 2⟩ : DynBitSet).m_storage_size
      ≤ (⟨[5, 2], 10, 2⟩ : DynBitSet).m_data.length ∧
    test 8 (resize 8 ⟨[5, 2], 10, 2⟩ 18 (fun _ => 7)) 9 = test 8 ⟨[5, 2], 10, 2⟩ 9 ∧
    test 8 (resize 8 (resize 8 ⟨[5, 2], 10, 2⟩ 2 (fun _ => 7)) 10 (fun _ => 9)) 1
      = test 8 ⟨[5, 2], 10, 2⟩ 1 := by
  refine ⟨by decide, by decide, by decide, ?_, ?_⟩
  · exact (resize_preserves_old_reads 8 ⟨[5, 2], 10, 2⟩ 8 (fun _ => 7) (fun _ => 9)
      (by decide) (by decide) (by decide)).1 9 (by decide)
  · exact (resize_preserves_old_reads 8 ⟨[5, 2], 10, 2⟩ 8 (fun _ => 7) (fun _ => 9)
      (by decide) (by decide) (by decide)).2 1 (by decide)

theorem any_not_eq_not_all (l : List Nat) (p : Nat → Bool) :
    (l.any fun x => !(p x)) = !(l.all p) := by
  induction l with
  | nil => rfl
  | cons x t ih => simp [List.any_cons, List.all_cons, ih]

/-- C10: `operator==` compares the size and all `m_storage_size` raw blocks
(padding bits included), `operator!=` is its exact pointwise negation, and the
two size-5 bitsets with blocks `[31]` and `[255]` — which agree on every
logical bit in `[0, 5)` — compare unequal because they differ in a padding
bit. -/
theorem beq_bne_spec :
    (∀ a b : DynBitSet, bne a b = !(beq a b)) ∧
    (∀ a b : DynBitSet, beq a b = true ↔
      (a.m_size = b.m_size ∧ ∀ i, i < a.m_storage_size → word a.m_data i = word b.m_data i)) ∧
    (beq ⟨[31], 5, 1⟩ ⟨[255], 5, 1⟩ = false ∧
      (⟨[31], 5, 1⟩ : DynBitSet).m_size = (⟨[255], 5, 1⟩ : DynBitSet).m_size ∧
      ∀ p, p < 5 → rawBit 8 [31] p = rawBit 8 [255] p) := by
  refine ⟨?_, ?_, by decide⟩
  · intro a b
    unfold beq bne
    by_cases h : a.m_size ≠ b.m_size
    · rw [if_pos h, if_pos h]; rfl
    · rw [if_neg h, if_neg h]
      exact any_not_eq_not_all (List.range a.m_storage_size)
        (fun i => word a.m_data i == word b.m_data i)
  · intro a b
    unfold beq
    by_cases h : a.m_size ≠ b.m_size
    · rw [if_pos h]
      simp only [Bool.false_eq_true, false_iff]
      rintro ⟨h1, _⟩
      exact h h1
    · have he : a.m_size = b.m_size := Decidable.not_not.mp h
      rw [if_neg h]
      simp [List.all_eq_true, List.mem_range, he]

/-- Witness for C10: the negation identity, applied at the two concrete
padding-divergent bitsets. -/
theorem beq_bne_spec_witness :
    bne ⟨[31], 5, 1⟩ ⟨[255], 5, 1⟩ = !(beq ⟨[31], 5, 1⟩ ⟨[255], 5, 1⟩) :=
  beq_bne_spec.1 ⟨[31], 5, 1⟩ ⟨[255], 5, 1⟩

end CDynamicBitSet
